import Mathlib

/-!
Verification of the hex-cipher utility of the sepolia-ethers repository
(`src/lib/hexCipher.ts`).

Modelling conventions:
* JavaScript byte values (entries of a `Uint8Array`) are natural numbers;
  a store into a `Uint8Array` truncates modulo 256, which appears as an
  explicit `% 256` at the point of the store.
* Text strings are Lean `String`s (sequences of Unicode scalar values);
  `TextEncoder`/`TextDecoder` are modelled by an explicit UTF-8
  encoder/decoder over lists of byte values.
* Functions that `throw` in the source return `Except String` here, with
  the thrown message as the error value.
-/

namespace HexCipher

/-- A list of naturals is a byte sequence when every entry fits in 8 bits,
as every entry of a `Uint8Array` does. -/
def ByteSeq (bs : List Nat) : Prop := ∀ b ∈ bs, b < 256

instance (bs : List Nat) : Decidable (ByteSeq bs) := by
  unfold ByteSeq; infer_instance

/-- Source `mixByte`: `byte ^ keyByte ^ positionSalt` with
`positionSalt = (index * 31 + 0xa5) & 0xff`. -/
def mixByte (byte keyByte index : Nat) : Nat :=
  byte ^^^ keyByte ^^^ ((index * 31 + 0xa5) &&& 0xff)

/-- Loop body of the source `applyCipher`: starting at position `i`,
transform each remaining input byte with the key byte at the position
taken modulo the key length.  The `% 256` is the `Uint8Array` store of
`output[i]`.  (`getD _ 0` stands for the in-bounds `keyBytes[i % len]`
access; the claims always supply a non-empty key, which keeps it in
bounds.) -/
def applyCipherFrom (keyBytes : List Nat) : Nat → List Nat → List Nat
  | _, [] => []
  | i, b :: rest =>
      mixByte b (keyBytes.getD (i % keyBytes.length) 0) i % 256 ::
        applyCipherFrom keyBytes (i + 1) rest

/-- Source `applyCipher`: the loop over the whole input starting at 0. -/
def applyCipher (input keyBytes : List Nat) : List Nat :=
  applyCipherFrom keyBytes 0 input

theorem applyCipherFrom_length (keyBytes : List Nat) (i : Nat)
    (input : List Nat) :
    (applyCipherFrom keyBytes i input).length = input.length := by
  induction input generalizing i with
  | nil => rfl
  | cons b rest ih => simp [applyCipherFrom, ih]

theorem applyCipher_length (input keyBytes : List Nat) :
    (applyCipher input keyBytes).length = input.length :=
  applyCipherFrom_length keyBytes 0 input

theorem byteSeq_applyCipherFrom (keyBytes : List Nat) (i : Nat)
    (input : List Nat) : ByteSeq (applyCipherFrom keyBytes i input) := by
  induction input generalizing i with
  | nil => intro b hb; simp [applyCipherFrom] at hb
  | cons b rest ih =>
      intro x hx
      simp only [applyCipherFrom, List.mem_cons] at hx
      rcases hx with h | h
      · subst h; exact Nat.mod_lt _ (by norm_num)
      · exact ih (i + 1) x h

theorem byteSeq_applyCipher (input keyBytes : List Nat) :
    ByteSeq (applyCipher input keyBytes) :=
  byteSeq_applyCipherFrom keyBytes 0 input

theorem salt_lt (i : Nat) : (i * 31 + 0xa5) &&& 0xff < 256 :=
  Nat.lt_succ_of_le (Nat.and_le_right)

theorem mixByte_lt (b k i : Nat) (hb : b < 256) (hk : k < 256) :
    mixByte b k i < 256 := by
  unfold mixByte
  have h1 : b ^^^ k < 2 ^ 8 := Nat.xor_lt_two_pow hb hk
  exact Nat.xor_lt_two_pow h1 (salt_lt i)

theorem xor_right_comm (a x y : Nat) : a ^^^ x ^^^ y = a ^^^ y ^^^ x := by
  rw [Nat.xor_assoc, Nat.xor_comm x y, ← Nat.xor_assoc]

theorem mixByte_mixByte (b k i : Nat) :
    mixByte (mixByte b k i) k i = b := by
  unfold mixByte
  rw [xor_right_comm (b ^^^ k ^^^ _), Nat.xor_cancel_right,
    Nat.xor_cancel_right]

/-- Transforming twice from the same starting position with the same key
returns the input, entry by entry, as long as input and key are genuine
byte sequences (so the `Uint8Array` stores never truncate). -/
theorem applyCipherFrom_applyCipherFrom (keyBytes : List Nat)
    (hkey : ByteSeq keyBytes) (hne : keyBytes ≠ []) (i : Nat)
    (input : List Nat) (hin : ByteSeq input) :
    applyCipherFrom keyBytes i (applyCipherFrom keyBytes i input) = input := by
  induction input generalizing i with
  | nil => rfl
  | cons b rest ih =>
      have hb : b < 256 := hin b (List.mem_cons_self b rest)
      have hrest : ByteSeq rest := fun x hx => hin x (List.mem_cons_of_mem b hx)
      have hklen : 0 < keyBytes.length := List.length_pos.mpr hne
      have hkmem : keyBytes.getD (i % keyBytes.length) 0 ∈ keyBytes := by
        rw [List.getD_eq_getElem keyBytes 0 (Nat.mod_lt i hklen)]
        exact List.getElem_mem _
      have hk : keyBytes.getD (i % keyBytes.length) 0 < 256 := hkey _ hkmem
      have hmix : mixByte b (keyBytes.getD (i % keyBytes.length) 0) i < 256 :=
        mixByte_lt _ _ _ hb hk
      simp only [applyCipherFrom, Nat.mod_eq_of_lt hmix]
      rw [ih (i + 1) hrest]
      have hmix2 :
          mixByte (mixByte b (keyBytes.getD (i % keyBytes.length) 0) i)
            (keyBytes.getD (i % keyBytes.length) 0) i = b :=
        mixByte_mixByte _ _ _
      rw [hmix2, Nat.mod_eq_of_lt hb]

/-- Involutivity of the source `applyCipher` for byte-sequence inputs and a
non-empty byte-sequence key. -/
theorem applyCipher_applyCipher (input keyBytes : List Nat)
    (hin : ByteSeq input) (hkey : ByteSeq keyBytes) (hne : keyBytes ≠ []) :
    applyCipher (applyCipher input keyBytes) keyBytes = input :=
  applyCipherFrom_applyCipherFrom keyBytes hkey hne 0 input hin

/-- Modelled from the spec: the "fixed universal text encoding" used by the
browser's `TextEncoder` (the source's `encoder.encode`) is UTF-8; this is
the UTF-8 encoding of one Unicode scalar value, written with division and
remainder arithmetic. -/
def utf8EncodeChar (c : Char) : List Nat :=
  let v := c.toNat
  if v < 0x80 then [v]
  else if v < 0x800 then [0xc0 + v / 64, 0x80 + v % 64]
  else if v < 0x10000 then
    [0xe0 + v / 4096, 0x80 + v / 64 % 64, 0x80 + v % 64]
  else
    [0xf0 + v / 262144, 0x80 + v / 4096 % 64, 0x80 + v / 64 % 64,
      0x80 + v % 64]

/-- UTF-8 encoding of a sequence of characters. -/
def utf8Encode (s : List Char) : List Nat := (s.map utf8EncodeChar).flatten

/-- A UTF-8 continuation byte. -/
def isCont (b : Nat) : Bool := 0x80 ≤ b && b < 0xc0

/-- The replacement character U+FFFD emitted by a non-fatal `TextDecoder`
on malformed input. -/
def replChar : Char := Char.ofNat 0xfffd

/-- Modelled from the spec: one step of the browser's non-fatal UTF-8
`TextDecoder` (the source's `decoder.decode`): given the first byte and the
remaining bytes, produce the decoded character (the replacement character
on malformed input) and the bytes left to decode.  Overlong encodings,
surrogate code points and out-of-range values are malformed. -/
def utf8DecodeStep (b0 : Nat) (rest : List Nat) : Char × Nat :=
  if b0 < 0x80 then (Char.ofNat b0, 0)
  else if b0 < 0xc2 then (replChar, 0)
  else if b0 < 0xe0 then
    match rest with
    | b1 :: _ =>
        if isCont b1 then (Char.ofNat ((b0 - 0xc0) * 64 + (b1 - 0x80)), 1)
        else (replChar, 0)
    | [] => (replChar, 0)
  else if b0 < 0xf0 then
    match rest with
    | b1 :: b2 :: _ =>
        let v := (b0 - 0xe0) * 4096 + (b1 - 0x80) * 64 + (b2 - 0x80)
        if isCont b1 ∧ isCont b2 ∧ 0x800 ≤ v ∧ (v < 0xd800 ∨ 0xe000 ≤ v) then
          (Char.ofNat v, 2)
        else (replChar, 0)
    | _ => (replChar, 0)
  else if b0 < 0xf5 then
    match rest with
    | b1 :: b2 :: b3 :: _ =>
        let v := (b0 - 0xf0) * 262144 + (b1 - 0x80) * 4096 +
          (b2 - 0x80) * 64 + (b3 - 0x80)
        if isCont b1 ∧ isCont b2 ∧ isCont b3 ∧ 0x10000 ≤ v ∧ v < 0x110000 then
          (Char.ofNat v, 3)
        else (replChar, 0)
    | _ => (replChar, 0)
  else (replChar, 0)

/-- Fuel-indexed iteration of `utf8DecodeStep`; each step consumes one
unit of fuel and at least one byte, so a fuel equal to the byte count is
always sufficient. -/
def utf8DecodeFuel : Nat → List Nat → List Char
  | 0, _ => []
  | _, [] => []
  | fuel + 1, b0 :: rest =>
      (utf8DecodeStep b0 rest).1 ::
        utf8DecodeFuel fuel (rest.drop (utf8DecodeStep b0 rest).2)

/-- Modelled from the spec: the browser's non-fatal UTF-8 `TextDecoder`,
iterating `utf8DecodeStep` over the whole byte sequence.  The step's
second component is the count of continuation bytes it consumed. -/
def utf8Decode (l : List Nat) : List Char := utf8DecodeFuel l.length l

theorem utf8DecodeFuel_congr (f1 : Nat) : ∀ (f2 : Nat) (l : List Nat),
    l.length ≤ f1 → l.length ≤ f2 → utf8DecodeFuel f1 l = utf8DecodeFuel f2 l := by
  induction f1 with
  | zero =>
      intro f2 l h1 h2
      cases l with
      | nil => cases f2 <;> rfl
      | cons b0 rest => simp at h1
  | succ f ih =>
      intro f2 l h1 h2
      cases l with
      | nil => cases f2 <;> rfl
      | cons b0 rest =>
          cases f2 with
          | zero => simp at h2
          | succ f2p =>
              simp only [utf8DecodeFuel]
              congr 1
              have hd : (rest.drop (utf8DecodeStep b0 rest).2).length ≤ rest.length := by
                simp only [List.length_drop]
                omega
              simp only [List.length_cons] at h1 h2
              exact ih f2p _ (by omega) (by omega)

theorem utf8Decode_cons (b0 : Nat) (rest : List Nat) :
    utf8Decode (b0 :: rest) =
      (utf8DecodeStep b0 rest).1 ::
        utf8Decode (rest.drop (utf8DecodeStep b0 rest).2) := by
  simp only [utf8Decode, List.length_cons, utf8DecodeFuel]
  congr 1
  exact utf8DecodeFuel_congr rest.length _ _
    (by simp only [List.length_drop]; omega)
    (le_refl _)

theorem utf8DecodeStep_one (b0 : Nat) (h : b0 < 0x80) (rest : List Nat) :
    utf8DecodeStep b0 rest = (Char.ofNat b0, 0) := by
  unfold utf8DecodeStep
  rw [if_pos h]

theorem utf8DecodeStep_two (v : Nat) (h1 : 0x80 ≤ v) (h2 : v < 0x800)
    (rest : List Nat) :
    utf8DecodeStep (0xc0 + v / 64) ((0x80 + v % 64) :: rest) =
      (Char.ofNat v, 1) := by
  have hb0a : ¬ (0xc0 + v / 64 < 0x80) := by omega
  have hb0b : ¬ (0xc0 + v / 64 < 0xc2) := by omega
  have hb0c : 0xc0 + v / 64 < 0xe0 := by omega
  have hcont : isCont (0x80 + v % 64) = true := by
    simp only [isCont, Bool.and_eq_true, decide_eq_true_eq]
    omega
  unfold utf8DecodeStep
  rw [if_neg hb0a, if_neg hb0b, if_pos hb0c]
  simp only [hcont, if_true]
  rw [show (0xc0 + v / 64 - 0xc0) * 64 + (0x80 + v % 64 - 0x80) = v by omega]

theorem utf8DecodeStep_three (v : Nat) (h1 : 0x800 ≤ v) (h2 : v < 0x10000)
    (h3 : v < 0xd800 ∨ 0xe000 ≤ v) (rest : List Nat) :
    utf8DecodeStep (0xe0 + v / 4096)
      ((0x80 + v / 64 % 64) :: (0x80 + v % 64) :: rest) =
      (Char.ofNat v, 2) := by
  have hb0a : ¬ (0xe0 + v / 4096 < 0x80) := by omega
  have hb0b : ¬ (0xe0 + v / 4096 < 0xc2) := by omega
  have hb0c : ¬ (0xe0 + v / 4096 < 0xe0) := by omega
  have hb0d : 0xe0 + v / 4096 < 0xf0 := by omega
  have hval : (0xe0 + v / 4096 - 0xe0) * 4096 + (0x80 + v / 64 % 64 - 0x80) * 64 +
      (0x80 + v % 64 - 0x80) = v := by omega
  have hcond : isCont (0x80 + v / 64 % 64) = true ∧ isCont (0x80 + v % 64) = true ∧
      0x800 ≤ v ∧ (v < 0xd800 ∨ 0xe000 ≤ v) := by
    refine ⟨?_, ?_, h1, h3⟩ <;>
      · simp only [isCont, Bool.and_eq_true, decide_eq_true_eq]
        omega
  unfold utf8DecodeStep
  rw [if_neg hb0a, if_neg hb0b, if_neg hb0c, if_pos hb0d]
  simp only [hval]
  rw [if_pos hcond]

theorem utf8DecodeStep_four (v : Nat) (h1 : 0x10000 ≤ v) (h2 : v < 0x110000)
    (rest : List Nat) :
    utf8DecodeStep (0xf0 + v / 262144)
      ((0x80 + v / 4096 % 64) :: (0x80 + v / 64 % 64) :: (0x80 + v % 64) :: rest) =
      (Char.ofNat v, 3) := by
  have hb0a : ¬ (0xf0 + v / 262144 < 0x80) := by omega
  have hb0b : ¬ (0xf0 + v / 262144 < 0xc2) := by omega
  have hb0c : ¬ (0xf0 + v / 262144 < 0xe0) := by omega
  have hb0d : ¬ (0xf0 + v / 262144 < 0xf0) := by omega
  have hb0e : 0xf0 + v / 262144 < 0xf5 := by omega
  have hval : (0xf0 + v / 262144 - 0xf0) * 262144 + (0x80 + v / 4096 % 64 - 0x80) * 4096 +
      (0x80 + v / 64 % 64 - 0x80) * 64 + (0x80 + v % 64 - 0x80) = v := by omega
  have hcond : isCont (0x80 + v / 4096 % 64) = true ∧
      isCont (0x80 + v / 64 % 64) = true ∧ isCont (0x80 + v % 64) = true ∧
      0x10000 ≤ v ∧ v < 0x110000 := by
    refine ⟨?_, ?_, ?_, h1, h2⟩ <;>
      · simp only [isCont, Bool.and_eq_true, decide_eq_true_eq]
        omega
  unfold utf8DecodeStep
  rw [if_neg hb0a, if_neg hb0b, if_neg hb0c, if_neg hb0d, if_pos hb0e]
  simp only [hval]
  rw [if_pos hcond]

theorem utf8Decode_encodeChar_append (c : Char) (rest : List Nat) :
    utf8Decode (utf8EncodeChar c ++ rest) = c :: utf8Decode rest := by
  have hv : c.toNat < 0xd800 ∨ (0xdfff < c.toNat ∧ c.toNat < 0x110000) := c.valid
  by_cases h1 : c.toNat < 0x80
  · simp only [utf8EncodeChar, if_pos h1, List.cons_append, List.nil_append]
    rw [utf8Decode_cons, utf8DecodeStep_one c.toNat h1 rest]
    simp [Char.ofNat_toNat]
  · by_cases h2 : c.toNat < 0x800
    · simp only [utf8EncodeChar, if_neg h1, if_pos h2, List.cons_append,
        List.nil_append]
      rw [utf8Decode_cons, utf8DecodeStep_two c.toNat (by omega) h2 rest]
      simp [Char.ofNat_toNat]
    · by_cases h3 : c.toNat < 0x10000
      · simp only [utf8EncodeChar, if_neg h1, if_neg h2, if_pos h3,
          List.cons_append, List.nil_append]
        rw [utf8Decode_cons,
          utf8DecodeStep_three c.toNat (by omega) h3 (by omega) rest]
        simp [Char.ofNat_toNat]
      · simp only [utf8EncodeChar, if_neg h1, if_neg h2, if_neg h3,
          List.cons_append, List.nil_append]
        rw [utf8Decode_cons,
          utf8DecodeStep_four c.toNat (by omega) (by omega) rest]
        simp [Char.ofNat_toNat]

/-- Decoding inverts encoding: the UTF-8 roundtrip at the level of
character lists. -/
theorem utf8Decode_utf8Encode (s : List Char) :
    utf8Decode (utf8Encode s) = s := by
  unfold utf8Encode
  induction s with
  | nil =>
      simp only [List.map_nil, List.flatten_nil]
      rfl
  | cons c cs ih =>
      simp only [List.map_cons, List.flatten_cons]
      rw [utf8Decode_encodeChar_append, ih]

theorem byteSeq_utf8EncodeChar (c : Char) : ∀ b ∈ utf8EncodeChar c, b < 256 := by
  have hv : c.toNat < 0xd800 ∨ (0xdfff < c.toNat ∧ c.toNat < 0x110000) := c.valid
  intro b hb
  unfold utf8EncodeChar at hb
  by_cases h1 : c.toNat < 0x80
  · rw [if_pos h1] at hb
    simp at hb
    omega
  · rw [if_neg h1] at hb
    by_cases h2 : c.toNat < 0x800
    · rw [if_pos h2] at hb
      simp at hb
      omega
    · rw [if_neg h2] at hb
      by_cases h3 : c.toNat < 0x10000
      · rw [if_pos h3] at hb
        simp at hb
        omega
      · rw [if_neg h3] at hb
        simp at hb
        omega

theorem byteSeq_utf8Encode (s : List Char) : ByteSeq (utf8Encode s) := by
  intro b hb
  unfold utf8Encode at hb
  rw [List.mem_flatten] at hb
  obtain ⟨l, hl, hbl⟩ := hb
  rw [List.mem_map] at hl
  obtain ⟨c, _, rfl⟩ := hl
  exact byteSeq_utf8EncodeChar c b hbl

theorem utf8EncodeChar_ne_nil (c : Char) : utf8EncodeChar c ≠ [] := by
  simp only [utf8EncodeChar]
  split
  · simp
  · split
    · simp
    · split
      · simp
      · simp

theorem utf8Encode_ne_nil (s : List Char) (h : s ≠ []) : utf8Encode s ≠ [] := by
  cases s with
  | nil => exact absurd rfl h
  | cons c cs =>
      unfold utf8Encode
      simp only [List.map_cons, List.flatten_cons, ne_eq, List.append_eq_nil,
        not_and]
      intro hc
      exact absurd hc (utf8EncodeChar_ne_nil c)

theorem toNat_ofNat_valid (n : Nat) (h : n.isValidChar) :
    (Char.ofNat n).toNat = n := by
  unfold Char.ofNat
  rw [dif_pos h]
  rfl

/-- A hexadecimal digit character, as accepted by the character class
`[0-9A-Fa-f]` of the ethers validation regex. -/
def isHexDigitChar (c : Char) : Bool :=
  (0x30 ≤ c.toNat && c.toNat ≤ 0x39) || (0x61 ≤ c.toNat && c.toNat ≤ 0x66) ||
    (0x41 ≤ c.toNat && c.toNat ≤ 0x46)

/-- Modelled from the spec: `isHexString(value, true)` of the ethers v6
library (an external collaborator of the source): the value must match
`^0x[0-9A-Fa-f]*$` and, because the length argument is `true`, have even
total length.  Here `(2 + rest.length)` is the length of the whole value
`'0' :: 'x' :: rest`. -/
def isHexString (s : List Char) : Bool :=
  match s with
  | c0 :: c1 :: rest =>
      c0 == '0' && c1 == 'x' && rest.all isHexDigitChar &&
        (2 + rest.length) % 2 == 0
  | _ => false

/-- Source `hex.startsWith('0x') ? hex.slice(2) : hex` inside
`normalizeHex`. -/
def strip0x (s : List Char) : List Char :=
  match s with
  | c0 :: c1 :: rest => if c0 == '0' && c1 == 'x' then rest else s
  | _ => s

/-- Source `normalizeHex`: validate with `isHexString(hex, true)`, strip
the `0x` prefix, reject odd digit counts, lowercase. -/
def normalizeHex (hex : List Char) : Except String (List Char) :=
  if ¬ isHexString hex then .error "请输入合法的 16 进制字符串"
  else if (strip0x hex).length % 2 ≠ 0 then .error "16 进制字符串长度需要为偶数"
  else .ok ((strip0x hex).map Char.toLower)

/-- Numeric value of a hexadecimal digit character, as `parseInt(-, 16)`
computes it on the lowercased two-character substrings taken by the source
`hexToBytes` (which, after `normalizeHex`, only ever sees `[0-9a-f]`). -/
def hexVal (c : Char) : Nat :=
  if c.toNat ≤ 0x39 then c.toNat - 0x30
  else if c.toNat ≤ 0x46 then c.toNat - 0x37
  else c.toNat - 0x57

/-- Source `hexToBytes`: the loop reads two characters at a time; its input
always has even length (enforced by `normalizeHex`), so the one-character
leftover case is unreachable and maps to the empty output here. -/
def hexToBytes : List Char → List Nat
  | c1 :: c2 :: rest => (hexVal c1 * 16 + hexVal c2) :: hexToBytes rest
  | _ => []

/-- Lowercase hexadecimal digit character for a value below 16, as
`byte.toString(16)` produces. -/
def hexDigitChar (n : Nat) : Char :=
  if n < 10 then Char.ofNat (0x30 + n) else Char.ofNat (0x57 + n)

/-- Source `byte.toString(16).padStart(2, '0')` for a `Uint8Array` entry
(a value below 256): exactly two lowercase hexadecimal digits. -/
def byteToHex (b : Nat) : List Char :=
  [hexDigitChar (b / 16), hexDigitChar (b % 16)]

/-- Source `bytesToHex`: map every byte to two hex digits, join, and
prepend `0x`. -/
def bytesToHex (bs : List Nat) : List Char :=
  '0' :: 'x' :: (bs.map byteToHex).flatten

/-- Characters removed by JavaScript's `String.prototype.trim`: the
ECMAScript WhiteSpace and LineTerminator code points. -/
def isJsWhitespace (c : Char) : Bool :=
  [0x9, 0xa, 0xb, 0xc, 0xd, 0x20, 0xa0, 0x1680, 0x2000, 0x2001, 0x2002,
    0x2003, 0x2004, 0x2005, 0x2006, 0x2007, 0x2008, 0x2009, 0x200a, 0x2028,
    0x2029, 0x202f, 0x205f, 0x3000, 0xfeff].contains c.toNat

/-- JavaScript `key.trim()`: drop whitespace from both ends. -/
def jsTrim (s : List Char) : List Char :=
  ((s.dropWhile isJsWhitespace).reverse.dropWhile isJsWhitespace).reverse

/-- Source `buildKey`: reject a key that is empty after trimming
(`!key.trim()`), otherwise UTF-8-encode the untrimmed key. -/
def buildKey (key : List Char) : Except String (List Nat) :=
  if jsTrim key = [] then .error "密钥不能为空"
  else .ok (utf8Encode key)

/-- Source `encryptTextToHex`: reject empty text (`!text`), encode text and
key to bytes, transform, render as hex. -/
def encryptTextToHex (text key : String) : Except String String :=
  if text = "" then .error "待加密文本不能为空"
  else do
    let inputBytes := utf8Encode text.data
    let keyBytes ← buildKey key.data
    pure (String.mk (bytesToHex (applyCipher inputBytes keyBytes)))

/-- Source `decryptHexToText`: normalize and validate the hex string,
convert to bytes, build the key, transform, decode the bytes as text. -/
def decryptHexToText (cipherHex key : String) : Except String String := do
  let normalized ← normalizeHex cipherHex.data
  let inputBytes := hexToBytes normalized
  let keyBytes ← buildKey key.data
  let plainBytes := applyCipher inputBytes keyBytes
  pure (String.mk (utf8Decode plainBytes))

/-- A lowercase hexadecimal digit character `[0-9a-f]`. -/
def isLowerHexDigit (c : Char) : Bool :=
  (0x30 ≤ c.toNat && c.toNat ≤ 0x39) || (0x61 ≤ c.toNat && c.toNat ≤ 0x66)

theorem toNat_hexDigitChar (n : Nat) (h : n < 16) :
    (hexDigitChar n).toNat = if n < 10 then 0x30 + n else 0x57 + n := by
  unfold hexDigitChar
  split
  · rw [toNat_ofNat_valid _ (Or.inl (by omega))]
  · rw [toNat_ofNat_valid _ (Or.inl (by omega))]

theorem isLowerHexDigit_hexDigitChar (n : Nat) (h : n < 16) :
    isLowerHexDigit (hexDigitChar n) = true := by
  unfold isLowerHexDigit
  rw [toNat_hexDigitChar n h]
  by_cases h10 : n < 10 <;> simp [h10] <;> omega

theorem isHexDigitChar_hexDigitChar (n : Nat) (h : n < 16) :
    isHexDigitChar (hexDigitChar n) = true := by
  unfold isHexDigitChar
  rw [toNat_hexDigitChar n h]
  by_cases h10 : n < 10 <;> simp [h10] <;> omega

theorem toLower_hexDigitChar (n : Nat) (h : n < 16) :
    Char.toLower (hexDigitChar n) = hexDigitChar n := by
  have ht := toNat_hexDigitChar n h
  simp only [Char.toLower, ht]
  rw [if_neg]
  by_cases h10 : n < 10 <;> simp [h10] <;> omega

theorem hexVal_hexDigitChar (n : Nat) (h : n < 16) :
    hexVal (hexDigitChar n) = n := by
  unfold hexVal
  rw [toNat_hexDigitChar n h]
  by_cases h10 : n < 10
  · rw [if_pos h10, if_pos (by omega)]
    omega
  · rw [if_neg h10, if_neg (by omega), if_neg (by omega)]
    omega

theorem hexToBytes_byteToHex (bs : List Nat) (h : ByteSeq bs) :
    hexToBytes ((bs.map byteToHex).flatten) = bs := by
  induction bs with
  | nil => rfl
  | cons b rest ih =>
      have hb : b < 256 := h b (List.mem_cons_self b rest)
      have hrest : ByteSeq rest := fun x hx => h x (List.mem_cons_of_mem b hx)
      have hshape : ((b :: rest).map byteToHex).flatten =
          hexDigitChar (b / 16) :: hexDigitChar (b % 16) ::
            (rest.map byteToHex).flatten := by
        simp [byteToHex]
      rw [hshape, hexToBytes, ih hrest, hexVal_hexDigitChar _ (by omega),
        hexVal_hexDigitChar _ (by omega)]
      congr 1
      omega

theorem map_toLower_byteToHex (bs : List Nat) (h : ByteSeq bs) :
    ((bs.map byteToHex).flatten).map Char.toLower = (bs.map byteToHex).flatten := by
  induction bs with
  | nil => rfl
  | cons b rest ih =>
      have hb : b < 256 := h b (List.mem_cons_self b rest)
      have hrest : ByteSeq rest := fun x hx => h x (List.mem_cons_of_mem b hx)
      have hshape : ((b :: rest).map byteToHex).flatten =
          hexDigitChar (b / 16) :: hexDigitChar (b % 16) ::
            (rest.map byteToHex).flatten := by
        simp [byteToHex]
      rw [hshape]
      simp only [List.map_cons, toLower_hexDigitChar (b / 16) (by omega),
        toLower_hexDigitChar (b % 16) (by omega), ih hrest]

theorem all_isHexDigit_byteToHex (bs : List Nat) (h : ByteSeq bs) :
    ((bs.map byteToHex).flatten).all isHexDigitChar = true := by
  induction bs with
  | nil => rfl
  | cons b rest ih =>
      have hb : b < 256 := h b (List.mem_cons_self b rest)
      have hrest : ByteSeq rest := fun x hx => h x (List.mem_cons_of_mem b hx)
      have hshape : ((b :: rest).map byteToHex).flatten =
          hexDigitChar (b / 16) :: hexDigitChar (b % 16) ::
            (rest.map byteToHex).flatten := by
        simp [byteToHex]
      rw [hshape]
      simp only [List.all_cons, isHexDigitChar_hexDigitChar (b / 16) (by omega),
        isHexDigitChar_hexDigitChar (b % 16) (by omega), ih hrest,
        Bool.and_true]

theorem length_flatten_byteToHex (bs : List Nat) :
    ((bs.map byteToHex).flatten).length = 2 * bs.length := by
  induction bs with
  | nil => rfl
  | cons b rest ih =>
      have hshape : ((b :: rest).map byteToHex).flatten =
          hexDigitChar (b / 16) :: hexDigitChar (b % 16) ::
            (rest.map byteToHex).flatten := by
        simp [byteToHex]
      rw [hshape]
      simp only [List.length_cons, ih]
      omega

theorem normalizeHex_bytesToHex (bs : List Nat) (h : ByteSeq bs) :
    normalizeHex (bytesToHex bs) = .ok ((bs.map byteToHex).flatten) := by
  have hhex : isHexString (bytesToHex bs) = true := by
    simp only [bytesToHex, isHexString, all_isHexDigit_byteToHex bs h,
      length_flatten_byteToHex]
    simp
  have hstrip : strip0x (bytesToHex bs) = (bs.map byteToHex).flatten := by
    simp [bytesToHex, strip0x]
  unfold normalizeHex
  rw [hhex, hstrip]
  simp only [Bool.not_true, length_flatten_byteToHex]
  rw [if_neg (by simp), if_neg (by omega)]
  rw [map_toLower_byteToHex bs h]

theorem buildKey_ok (key : List Char) (hk : jsTrim key ≠ []) :
    buildKey key = .ok (utf8Encode key) := by
  unfold buildKey
  rw [if_neg hk]

theorem buildKey_error (key : List Char) (hk : jsTrim key = []) :
    buildKey key = .error "密钥不能为空" := by
  unfold buildKey
  rw [if_pos hk]

theorem ne_nil_of_jsTrim_ne_nil (key : List Char) (hk : jsTrim key ≠ []) :
    key ≠ [] := by
  intro h
  subst h
  exact hk rfl

theorem isHexString_iff (s : List Char) :
    isHexString s = true ↔
      ∃ ds, s = '0' :: 'x' :: ds ∧ (∀ c ∈ ds, isHexDigitChar c = true) ∧
        ds.length % 2 = 0 := by
  constructor
  · intro h
    match s with
    | [] => simp [isHexString] at h
    | [c] => simp [isHexString] at h
    | c0 :: c1 :: rest =>
        simp only [isHexString, Bool.and_eq_true, beq_iff_eq,
          List.all_eq_true, Nat.beq_eq_true_eq] at h
        obtain ⟨⟨⟨h0, h1⟩, hall⟩, heven⟩ := h
        refine ⟨rest, by rw [h0, h1], fun c hc => hall c hc, by omega⟩
  · rintro ⟨ds, rfl, hall, heven⟩
    have h1 : ds.all isHexDigitChar = true :=
      List.all_eq_true.mpr (fun c hc => hall c hc)
    simp [isHexString, h1]
    all_goals omega

theorem strip0x_cons_cons (ds : List Char) :
    strip0x ('0' :: 'x' :: ds) = ds := by
  simp [strip0x]

theorem normalizeHex_ok_of (ds : List Char)
    (hall : ∀ c ∈ ds, isHexDigitChar c = true) (heven : ds.length % 2 = 0) :
    normalizeHex ('0' :: 'x' :: ds) = .ok (ds.map Char.toLower) := by
  have hhex : isHexString ('0' :: 'x' :: ds) = true :=
    (isHexString_iff _).mpr ⟨ds, rfl, hall, heven⟩
  unfold normalizeHex
  rw [hhex, strip0x_cons_cons]
  rw [if_neg (by simp), if_neg (by omega)]

theorem normalizeHex_error_of_not_hexString (s : List Char)
    (h : isHexString s = false) :
    normalizeHex s = .error "请输入合法的 16 进制字符串" := by
  unfold normalizeHex
  rw [if_pos (by simp [h])]

theorem except_bind_ok {α β : Type} (a : α) (f : α → Except String β) :
    ((Except.ok a : Except String α) >>= f) = f a := rfl

theorem except_bind_error {α β : Type} (e : String)
    (f : α → Except String β) :
    ((Except.error e : Except String α) >>= f) = Except.error e := rfl

/-- Decrypting the output of encryption with the same key recovers the
original text. -/
theorem decrypt_encrypt_helper (t k c : String)
    (h : encryptTextToHex t k = .ok c) :
    decryptHexToText c k = .ok t := by
  unfold encryptTextToHex at h
  by_cases ht : t = ""
  · rw [if_pos ht] at h
    exact absurd h (by simp)
  · rw [if_neg ht] at h
    by_cases hk : jsTrim k.data = []
    · rw [buildKey_error k.data hk, except_bind_error] at h
      exact absurd h (by simp)
    · rw [buildKey_ok k.data hk] at h
      simp only [except_bind_ok, pure, Except.pure, Except.ok.injEq] at h
      subst h
      have hcipher : ByteSeq (applyCipher (utf8Encode t.data) (utf8Encode k.data)) :=
        byteSeq_applyCipher _ _
      unfold decryptHexToText
      have hdata : (String.mk (bytesToHex
          (applyCipher (utf8Encode t.data) (utf8Encode k.data)))).data =
          bytesToHex (applyCipher (utf8Encode t.data) (utf8Encode k.data)) := rfl
      rw [hdata, normalizeHex_bytesToHex _ hcipher]
      simp only [except_bind_ok]
      rw [hexToBytes_byteToHex _ hcipher, buildKey_ok k.data hk]
      simp only [except_bind_ok]
      rw [applyCipher_applyCipher _ _ (byteSeq_utf8Encode t.data)
        (byteSeq_utf8Encode k.data)
        (utf8Encode_ne_nil k.data (ne_nil_of_jsTrim_ne_nil k.data hk))]
      rw [utf8Decode_utf8Encode]
      rfl

theorem decrypt_ok_of_hexString (h k : String) (hk : jsTrim k.data ≠ [])
    (hh : isHexString h.data = true) :
    ∃ s, decryptHexToText h k = .ok s := by
  obtain ⟨ds, hds, hall, heven⟩ := (isHexString_iff _).mp hh
  unfold decryptHexToText
  rw [hds, normalizeHex_ok_of ds hall heven]
  simp only [except_bind_ok]
  rw [buildKey_ok k.data hk]
  simp only [except_bind_ok]
  exact ⟨_, rfl⟩

theorem decrypt_error_of_not_hexString (h k : String)
    (hh : isHexString h.data = false) :
    decryptHexToText h k = .error "请输入合法的 16 进制字符串" := by
  unfold decryptHexToText
  rw [normalizeHex_error_of_not_hexString _ hh, except_bind_error]

theorem decrypt_ok_iff_hexString (h k : String) (hk : jsTrim k.data ≠ []) :
    (∃ s, decryptHexToText h k = .ok s) ↔ isHexString h.data = true := by
  constructor
  · rintro ⟨s, hs⟩
    by_contra hh
    rw [decrypt_error_of_not_hexString h k (Bool.eq_false_iff.mpr hh)] at hs
    exact absurd hs (by simp)
  · exact decrypt_ok_of_hexString h k hk

theorem decrypt_error_of_blank_key (h k : String) (hk : jsTrim k.data = []) :
    ∃ e, decryptHexToText h k = .error e := by
  unfold decryptHexToText
  rcases hn : normalizeHex h.data with e | ds
  · rw [except_bind_error]
    exact ⟨e, rfl⟩
  · rw [except_bind_ok, buildKey_error k.data hk, except_bind_error]
    exact ⟨_, rfl⟩

theorem encryptTextToHex_ok_shape (t k c : String)
    (h : encryptTextToHex t k = .ok c) :
    t ≠ "" ∧ jsTrim k.data ≠ [] ∧
      c.data = bytesToHex (applyCipher (utf8Encode t.data) (utf8Encode k.data)) := by
  unfold encryptTextToHex at h
  by_cases ht : t = ""
  · rw [if_pos ht] at h
    exact absurd h (by simp)
  · rw [if_neg ht] at h
    by_cases hk : jsTrim k.data = []
    · rw [buildKey_error k.data hk, except_bind_error] at h
      exact absurd h (by simp)
    · rw [buildKey_ok k.data hk] at h
      simp only [except_bind_ok, pure, Except.pure, Except.ok.injEq] at h
      exact ⟨ht, hk, by rw [← h]⟩

theorem isLowerHexDigit_mem_byteToHex (bs : List Nat) (h : ByteSeq bs) :
    ∀ c ∈ (bs.map byteToHex).flatten, isLowerHexDigit c = true := by
  intro c hc
  rw [List.mem_flatten] at hc
  obtain ⟨l, hl, hcl⟩ := hc
  rw [List.mem_map] at hl
  obtain ⟨b, hb, rfl⟩ := hl
  have hblt : b < 256 := h b hb
  simp only [byteToHex, List.mem_cons, List.mem_singleton,
    List.not_mem_nil, or_false] at hcl
  rcases hcl with rfl | rfl
  · exact isLowerHexDigit_hexDigitChar _ (by omega)
  · exact isLowerHexDigit_hexDigitChar _ (by omega)

theorem applyCipherFrom_getD (keyBytes : List Nat) (input : List Nat)
    (i j : Nat) (hj : j < input.length) :
    (applyCipherFrom keyBytes i input).getD j 0 =
      mixByte (input.getD j 0)
        (keyBytes.getD ((i + j) % keyBytes.length) 0) (i + j) % 256 := by
  induction input generalizing i j with
  | nil => simp at hj
  | cons b rest ih =>
      cases j with
      | zero => simp [applyCipherFrom]
      | succ j' =>
          simp only [applyCipherFrom, List.getD_cons_succ]
          rw [ih (i + 1) j' (by simpa using hj)]
          rw [show i + 1 + j' = i + (j' + 1) by omega]

theorem land_ff_eq_mod (n : Nat) : n &&& 0xff = n % 256 := by
  simpa using Nat.and_pow_two_sub_one_eq_mod n 8

/-- Claim C1: for every byte sequence `b` and every key whose byte
sequence is non-empty, applying the byte transform twice with the same key
returns the original input. -/
theorem transform_self_inverse (b key : List Nat) (hb : ByteSeq b)
    (hkey : ByteSeq key) (hne : key ≠ []) :
    applyCipher (applyCipher b key) key = b :=
  applyCipher_applyCipher b key hb hkey hne

/-- Witness for claim C1 at a concrete input and key. -/
theorem transform_self_inverse_witness :
    ByteSeq [72, 101, 250] ∧ ByteSeq [107, 33] ∧ ([107, 33] : List Nat) ≠ [] ∧
      applyCipher (applyCipher [72, 101, 250] [107, 33]) [107, 33] =
        [72, 101, 250] :=
  ⟨by decide, by decide, by decide,
    transform_self_inverse _ _ (by decide) (by decide) (by decide)⟩

/-- Claim C2: whenever encryption of text `t` with key `k` succeeds,
decrypting the produced hex string with the same key returns `t`. -/
theorem encode_decode_roundtrip (t k c : String)
    (h : encryptTextToHex t k = .ok c) :
    decryptHexToText c k = .ok t :=
  decrypt_encrypt_helper t k c h

/-- Witness for claim C2: the concrete case of the spec,
"Hello, Sepolia!" under the key "sepolia-demo-key". -/
theorem encode_decode_roundtrip_witness :
    encryptTextToHex "Hello, Sepolia!" "sepolia-demo-key" =
      .ok "0x9ec4ff0122051e009ca9d9f95d3213" ∧
    decryptHexToText "0x9ec4ff0122051e009ca9d9f95d3213" "sepolia-demo-key" =
      .ok "Hello, Sepolia!" :=
  ⟨rfl, encode_decode_roundtrip _ _ _ rfl⟩

/-- Claim C3: for every input byte sequence, non-empty key byte sequence
and in-range index `i`, the transformed byte at `i` equals
`input[i] XOR key[i mod key.length] XOR ((i * 31 + 0xA5) mod 256)`. -/
theorem transform_byte_formula (input key : List Nat) (i : Nat)
    (hi : i < input.length) (hin : ByteSeq input) (hkey : ByteSeq key)
    (hne : key ≠ []) :
    (applyCipher input key).getD i 0 =
      (input.getD i 0) ^^^ (key.getD (i % key.length) 0) ^^^
        ((i * 31 + 0xa5) % 256) := by
  unfold applyCipher
  rw [applyCipherFrom_getD key input 0 i hi, Nat.zero_add]
  unfold mixByte
  rw [land_ff_eq_mod]
  apply Nat.mod_eq_of_lt
  have hb : input.getD i 0 < 256 := by
    rw [List.getD_eq_getElem input 0 hi]
    exact hin _ (List.getElem_mem _)
  have hklen : 0 < key.length := List.length_pos.mpr hne
  have hkb : key.getD (i % key.length) 0 < 256 := by
    rw [List.getD_eq_getElem key 0 (Nat.mod_lt i hklen)]
    exact hkey _ (List.getElem_mem _)
  have h1 : input.getD i 0 ^^^ key.getD (i % key.length) 0 < 2 ^ 8 :=
    Nat.xor_lt_two_pow (by omega) (by omega)
  have h2 : input.getD i 0 ^^^ key.getD (i % key.length) 0 ^^^
      ((i * 31 + 0xa5) % 256) < 2 ^ 8 :=
    Nat.xor_lt_two_pow h1 (by omega)
  omega

/-- Witness for claim C3 at a concrete input, key and index. -/
theorem transform_byte_formula_witness :
    2 < ([1, 2, 3] : List Nat).length ∧ ByteSeq [1, 2, 3] ∧ ByteSeq [7] ∧
      ([7] : List Nat) ≠ [] ∧
      (applyCipher [1, 2, 3] [7]).getD 2 0 =
        (([1, 2, 3] : List Nat).getD 2 0) ^^^
          (([7] : List Nat).getD (2 % ([7] : List Nat).length) 0) ^^^
          ((2 * 31 + 0xa5) % 256) :=
  ⟨by decide, by decide, by decide, by decide,
    transform_byte_formula [1, 2, 3] [7] 2 (by decide) (by decide) (by decide)
      (by decide)⟩

/-- Claim C4: encryption fails on empty text, and both encryption and
decryption fail whenever the key is empty or whitespace-only after
trimming. -/
theorem encode_decode_blank_errors (t h k : String) :
    ((t = "" ∨ jsTrim k.data = []) → ∃ e, encryptTextToHex t k = .error e) ∧
    (jsTrim k.data = [] → ∃ e, decryptHexToText h k = .error e) := by
  constructor
  · rintro (ht | hk)
    · refine ⟨"待加密文本不能为空", ?_⟩
      unfold encryptTextToHex
      rw [if_pos ht]
    · by_cases ht : t = ""
      · refine ⟨"待加密文本不能为空", ?_⟩
        unfold encryptTextToHex
        rw [if_pos ht]
      · refine ⟨"密钥不能为空", ?_⟩
        unfold encryptTextToHex
        rw [if_neg ht, buildKey_error k.data hk, except_bind_error]
  · exact decrypt_error_of_blank_key h k

/-- Witness for claim C4: empty text, a whitespace-only key for
encryption, and a whitespace-only key for decryption. -/
theorem encode_decode_blank_errors_witness :
    (∃ e, encryptTextToHex "" "key" = .error e) ∧
    (∃ e, encryptTextToHex "hi" "  " = .error e) ∧
    (∃ e, decryptHexToText "0x00" "  " = .error e) :=
  ⟨(encode_decode_blank_errors "" "0x00" "key").1 (Or.inl rfl),
   (encode_decode_blank_errors "hi" "0x00" "  ").1 (Or.inr (by decide)),
   (encode_decode_blank_errors "hi" "0x00" "  ").2 (by decide)⟩

/-- Claim C5: decryption fails when the digit part of the hex string has
odd length, or when it contains a character outside `[0-9A-Fa-f]`. -/
theorem decode_malformed_hex_errors (ds : List Char) (k : String) :
    (ds.length % 2 = 1 →
      ∃ e, decryptHexToText (String.mk ('0' :: 'x' :: ds)) k = .error e) ∧
    ((∃ c ∈ ds, isHexDigitChar c = false) →
      ∃ e, decryptHexToText (String.mk ('0' :: 'x' :: ds)) k = .error e) := by
  have key : isHexString ('0' :: 'x' :: ds) = false →
      ∃ e, decryptHexToText (String.mk ('0' :: 'x' :: ds)) k = .error e :=
    fun hbad => ⟨_, decrypt_error_of_not_hexString (String.mk _) k hbad⟩
  constructor
  · intro hodd
    apply key
    apply Bool.eq_false_iff.mpr
    intro htrue
    obtain ⟨ds2, heq, hall, heven⟩ := (isHexString_iff _).mp htrue
    have : ds2 = ds := by
      injection heq with h1 h2
      injection h2 with h3 h4
      exact h4.symm
    subst this
    omega
  · rintro ⟨c, hc, hcbad⟩
    apply key
    apply Bool.eq_false_iff.mpr
    intro htrue
    obtain ⟨ds2, heq, hall, heven⟩ := (isHexString_iff _).mp htrue
    have : ds2 = ds := by
      injection heq with h1 h2
      injection h2 with h3 h4
      exact h4.symm
    subst this
    rw [hall c hc] at hcbad
    exact absurd hcbad (by simp)

/-- Witness for claim C5: the odd-length example "0xabc" and the non-hex
example "0xzz". -/
theorem decode_malformed_hex_errors_witness :
    (∃ e, decryptHexToText (String.mk ('0' :: 'x' :: ['a', 'b', 'c'])) "key" =
      .error e) ∧
    (∃ e, decryptHexToText (String.mk ('0' :: 'x' :: ['z', 'z'])) "key" =
      .error e) :=
  ⟨(decode_malformed_hex_errors ['a', 'b', 'c'] "key").1 (by decide),
   (decode_malformed_hex_errors ['z', 'z'] "key").2 (by decide)⟩

/-- Claim C6 is false as stated: "ab" is an even-length string of
hexadecimal digits with a non-blank key, yet decryption rejects it,
because the ethers validator demands the `0x` prefix. -/
theorem decode_unprefixed_rejected :
    decryptHexToText "ab" "key" = .error "请输入合法的 16 进制字符串" := rfl

/-- Claim C6 (amended): with a non-blank key, decryption succeeds exactly
on strings of the form `0x` followed by an even number (possibly zero) of
hexadecimal digits; the prefix is mandatory. -/
theorem decode_accepts_iff_prefixed_even_hex (h k : String)
    (hk : jsTrim k.data ≠ []) :
    (∃ s, decryptHexToText h k = .ok s) ↔
      ∃ ds, h.data = '0' :: 'x' :: ds ∧ (∀ c ∈ ds, isHexDigitChar c = true) ∧
        ds.length % 2 = 0 :=
  (decrypt_ok_iff_hexString h k hk).trans (isHexString_iff h.data)

/-- Witness for the amended claim C6 at a concrete accepted string. -/
theorem decode_accepts_iff_witness :
    jsTrim ("key".data) ≠ [] ∧
    ((∃ s, decryptHexToText "0xab" "key" = .ok s) ↔
      ∃ ds, ("0xab".data) = '0' :: 'x' :: ds ∧
        (∀ c ∈ ds, isHexDigitChar c = true) ∧ ds.length % 2 = 0) :=
  ⟨by decide, decode_accepts_iff_prefixed_even_hex "0xab" "key" (by decide)⟩

/-- Claim C7: the transform preserves length, and successful encryption
yields `0x` followed by an even number of lowercase hexadecimal digits
encoding exactly as many bytes as the encoded input text. -/
theorem transform_length_and_hex_shape (input key : List Nat)
    (t k c : String) :
    (applyCipher input key).length = input.length ∧
    (encryptTextToHex t k = .ok c →
      ∃ ds, c.data = '0' :: 'x' :: ds ∧
        ds.length = 2 * (utf8Encode t.data).length ∧
        ds.length % 2 = 0 ∧ ∀ ch ∈ ds, isLowerHexDigit ch = true) := by
  refine ⟨applyCipher_length input key, fun h => ?_⟩
  obtain ⟨ht, hk, hc⟩ := encryptTextToHex_ok_shape t k c h
  refine ⟨((applyCipher (utf8Encode t.data) (utf8Encode k.data)).map
    byteToHex).flatten, ?_, ?_, ?_, ?_⟩
  · rw [hc]
    rfl
  · rw [length_flatten_byteToHex, applyCipher_length]
  · rw [length_flatten_byteToHex]
    omega
  · exact isLowerHexDigit_mem_byteToHex _ (byteSeq_applyCipher _ _)

/-- Witness for claim C7 at a concrete byte input and a concrete
encryption. -/
theorem transform_length_and_hex_shape_witness :
    (applyCipher [1, 2] [7]).length = ([1, 2] : List Nat).length ∧
    (∃ ds, ("0xaf".data) = '0' :: 'x' :: ds ∧
      ds.length = 2 * (utf8Encode "a".data).length ∧
      ds.length % 2 = 0 ∧ ∀ ch ∈ ds, isLowerHexDigit ch = true) :=
  ⟨(transform_length_and_hex_shape [1, 2] [7] "a" "k" "0xaf").1,
   (transform_length_and_hex_shape [1, 2] [7] "a" "k" "0xaf").2 rfl⟩

/-- Claim C8 is false as stated: there is no input byte sequence and
non-empty key for which the double transform differs from the input — the
transform is involutive. -/
theorem no_double_transform_mismatch :
    ¬ ∃ (b key : List Nat), ByteSeq b ∧ ByteSeq key ∧ key ≠ [] ∧
      applyCipher (applyCipher b key) key ≠ b := by
  rintro ⟨b, key, hb, hkey, hne, hcontra⟩
  exact hcontra (applyCipher_applyCipher b key hb hkey hne)

/-- Claim C8 (amended): applying the byte transform twice with the same
non-empty key always returns the original input; no counterexample
exists. -/
theorem double_transform_identity (b key : List Nat) (hb : ByteSeq b)
    (hkey : ByteSeq key) (hne : key ≠ []) :
    applyCipher (applyCipher b key) key = b :=
  applyCipher_applyCipher b key hb hkey hne

/-- Witness for the amended claim C8 at a concrete input and key. -/
theorem double_transform_identity_witness :
    ByteSeq [0, 170, 9] ∧ ByteSeq [42] ∧ ([42] : List Nat) ≠ [] ∧
      applyCipher (applyCipher [0, 170, 9] [42]) [42] = [0, 170, 9] :=
  ⟨by decide, by decide, by decide,
    double_transform_identity _ _ (by decide) (by decide) (by decide)⟩

/-- Claim C9: for every hex string accepted by the validator and every
non-blank key — matching the producing key or not — decryption returns
some (possibly garbled) text instead of failing. -/
theorem decode_total_on_valid_hex (h k : String)
    (hvalid : isHexString h.data = true) (hk : jsTrim k.data ≠ []) :
    ∃ s, decryptHexToText h k = .ok s :=
  decrypt_ok_of_hexString h k hk hvalid

/-- Witness for claim C9: a foreign ciphertext decoded with an unrelated
key. -/
theorem decode_total_on_valid_hex_witness :
    isHexString ("0xdeadbeef".data) = true ∧ jsTrim ("wrong".data) ≠ [] ∧
      ∃ s, decryptHexToText "0xdeadbeef" "wrong" = .ok s :=
  ⟨by decide, by decide,
    decode_total_on_valid_hex "0xdeadbeef" "wrong" (by decide) (by decide)⟩

/-- Claim C10: decrypting the bare prefix "0x" with any non-blank key
succeeds and returns the empty string. -/
theorem decode_bare_prefix_empty (k : String) (hk : jsTrim k.data ≠ []) :
    decryptHexToText "0x" k = .ok "" := by
  unfold decryptHexToText
  have hn : normalizeHex ("0x".data) = .ok [] := rfl
  rw [hn, except_bind_ok, buildKey_ok k.data hk, except_bind_ok]
  rfl

/-- Witness for claim C10 at a concrete key. -/
theorem decode_bare_prefix_empty_witness :
    jsTrim ("key".data) ≠ [] ∧ decryptHexToText "0x" "key" = .ok "" :=
  ⟨by decide, decode_bare_prefix_empty "key" (by decide)⟩

end HexCipher
